import Mathlib

/-
Verification development for the comparably_scrapper repository.

Shallow embedding of the pagination / deduplication / merge core shared by
src/app/service/comparably_scraper_service.py (the packaged app) and
src/v18.py (the latest standalone iteration), together with the request
validation of src/app/api/scrape_endpoint.py.

Modelling conventions:
  - Python datetime values are encoded as natural numbers
    (year*10000 + month*100 + day) * 100000 + second_of_day.
    This encoding is strictly monotone in (year, month, day, second), so
    all datetime comparisons performed by the code are preserved.
  - Python sets of tuples are modelled as lists used only through
    membership; the (hash(question_text), hash(review_text), date) keys of
    the code are modelled as the tuples (question_text, review_text, date)
    themselves, i.e. hash is modelled as injective.
  - BeautifulSoup values are modelled by structures carrying exactly the
    fields the scraping code inspects.
  - Fallible effects (HTTP fetches, thread futures) are modelled as
    Except / Option inputs; raising HTTPException is modelled as Except.error.
-/

namespace Scraper

/-- Encoded datetime; see the encoding note at the top of the file. -/
abbrev DateTime := Nat

/-- Pydantic model Review from src/app/schema/scrape_schema.py. -/
structure Review where
  text : String
  date : DateTime
deriving DecidableEq, Repr

/-- Pydantic model ReviewSection from src/app/schema/scrape_schema.py. -/
structure ReviewSection where
  section_name : String
  reviews : List Review
deriving DecidableEq, Repr

/-- Pydantic model Question from src/app/schema/scrape_schema.py. -/
structure Question where
  question_text : String
  review_section : ReviewSection
deriving DecidableEq, Repr

/-- Dedup key: the code uses (hash(question_text), hash(review_text), date);
hash is modelled as injective, so the key is the triple itself. -/
abbrev Key := String × String × DateTime

/-- The key built at comparably_scraper_service.py line 109 / v18.py line 524. -/
def reviewKey (question_text : String) (r : Review) : Key :=
  (question_text, r.text, r.date)

/-- Gregorian leap-year test, as used by Python datetime validation. -/
def isLeapYear (y : Nat) : Bool :=
  y % 4 == 0 && (y % 100 != 0 || y % 400 == 0)

/-- Number of days of month m in year y (Python datetime validation). -/
def daysInMonth (y m : Nat) : Nat :=
  if m == 2 then (if isLeapYear y then 29 else 28)
  else if m == 4 || m == 6 || m == 9 || m == 11 then 30
  else 31

/-- Encode a calendar date at midnight (the value datetime.strptime
returns for the format %Y-%m-%d). -/
def dateCode (y m d : Nat) : DateTime :=
  (y * 10000 + m * 100 + d) * 100000

/-- The endpoint mutation end.replace(hour=23, minute=59, second=59):
23:59:59 is second 86399 of the day. -/
def endOfDay (dt : DateTime) : DateTime :=
  dt + 86399

/-- Split a character list at every occurrence of sep (same contract as
splitting a string on a one-character separator). -/
def splitCharsOn (sep : Char) : List Char → List Char → List (List Char)
  | [], cur => [cur.reverse]
  | c :: cs, cur =>
    if c == sep then cur.reverse :: splitCharsOn sep cs []
    else splitCharsOn sep cs (c :: cur)

/-- Decimal reading of a digit string: some value when the string is
non-empty and all digits, none otherwise. -/
def decNat? (cs : List Char) : Option Nat :=
  if cs.isEmpty then none
  else if cs.all Char.isDigit then
    some (cs.foldl (fun n c => n * 10 + (c.toNat - 48)) 0)
  else none

/-- Model of datetime.strptime(s, "%Y-%m-%d") wrapped in try/except:
returns the encoded midnight datetime on success, none on ValueError.
In CPython, %Y matches exactly four digits, %m and %d match one or two
digits, and the calendar ranges are validated (year at least 1, month
1-12, day within the month). -/
def parseYMD (s : String) : Option DateTime :=
  match splitCharsOn '-' s.toList [] with
  | [ys, ms, ds] =>
    match decNat? ys, decNat? ms, decNat? ds with
    | some y, some m, some d =>
      if ys.length = 4 && ms.length ≤ 2 && ds.length ≤ 2 &&
         1 ≤ y && 1 ≤ m && m ≤ 12 && 1 ≤ d && d ≤ daysInMonth y m
      then some (dateCode y m d) else none
    | _, _, _ => none
  | _ => none

/-- The text cleanup quote.get_text(strip=True).replace(u0000, empty) of
v18.py line 149: removing every occurrence of the one-character string is
filtering that character out. -/
def stripNull (s : String) : String :=
  String.mk (s.toList.filter (fun c => !(c == '\x00')))

/-- A meta tag as inspected by _parse_reviews_from_block: only its
content attribute matters (none models an absent attribute). -/
structure MetaTag where
  content : Option String
deriving DecidableEq, Repr

/-- The cite.cppRH-review-cite element of a review block: the two lookups
v18.py lines 152-154 can perform on it (meta with itemprop=datePublished,
and the fallback meta whose content matches the date regex). -/
structure CiteBlock where
  itempropMeta : Option MetaTag
  regexMeta : Option MetaTag
deriving DecidableEq, Repr

/-- A div.cppRH review block, carrying the fields v18.py lines 147-161
inspect: the p.cppRH-review-quote text (none when the element is absent)
and the cite block (none when absent). -/
structure RevBlock where
  quote : Option String
  cite : Option CiteBlock
deriving DecidableEq, Repr

/-- The date_meta_tag lookup of v18.py lines 151-154: within the cite
block, the itemprop meta or else the regex-matched meta (Python or on
tag values). none when the cite block is missing or neither tag found. -/
def dateMetaOf (b : RevBlock) : Option MetaTag :=
  b.cite.bind (fun c => c.itempropMeta.orElse (fun _ => c.regexMeta))

/-- The guard of v18.py line 158: skip unless no start filter is set or
the date is not before it. -/
def notBeforeStart (sf : Option DateTime) (d : DateTime) : Bool :=
  match sf with
  | some s => !(decide (d < s))
  | none => true

/-- The guard of v18.py line 159: skip unless no end filter is set or
the date is not after it. -/
def notAfterEnd (ef : Option DateTime) (d : DateTime) : Bool :=
  match ef with
  | some e => !(decide (e < d))
  | none => true

/-- The body of the per-block loop of _parse_reviews_from_block
(v18.py lines 146-160): produce a review only when the quote element
exists, a date meta tag with non-empty content exists, the content
parses as %Y-%m-%d, and the date passes the optional range filters;
every continue of the source is a none. -/
def parseBlock (sf ef : Option DateTime) (b : RevBlock) : Option Review :=
  match b.quote with
  | none => none
  | some q =>
    let text := stripNull q
    match dateMetaOf b with
    | none => none
    | some m =>
      match m.content with
      | none => none
      | some c =>
        if c = "" then none
        else
          match parseYMD c with
          | none => none
          | some d =>
            if notBeforeStart sf d && notAfterEnd ef d then some ⟨text, d⟩
            else none

/-- _parse_reviews_from_block (v18.py lines 139-161): the find_all over
div.cppRH blocks with continue-based filtering is a filterMap. -/
def parse_reviews_from_block (sf ef : Option DateTime) (blocks : List RevBlock) :
    List Review :=
  blocks.filterMap (parseBlock sf ef)

/-- Substring helper: listStartsWith a b is true when b is an initial
segment of a (models Python str containment, below). -/
def listStartsWith : List Char → List Char → Bool
  | _, [] => true
  | [], _ :: _ => false
  | a :: as, b :: bs => a == b && listStartsWith as bs

/-- strContains hay needle models the Python expression needle in hay. -/
def strContains (hay needle : String) : Bool :=
  go hay.toList needle.toList
where
  go : List Char → List Char → Bool
    | [], n => n.isEmpty
    | h :: hs, n => listStartsWith (h :: hs) n || go hs n

/-- NEXT_PAGE_SELECTORS from src/app/core/config.py lines 14-20 (the same
ten selectors appear in v18.py lines 106-112). -/
def NEXT_PAGE_SELECTORS : List String :=
  ["a.qa-PaginationPageLink-Next",
   "a.pagination-link[rel=next]", "a[aria-label*=Next Page i]",
   "a[title*=Next Page i]",
   "li.pagination-next > a", "a.pagination-next", "a.NextPageLink",
   "nav[aria-label*=pagination i] li:last-child a[href]",
   ".page-next > a", "a.next"]

/-- A candidate next-page anchor, carrying the attributes the search at
comparably_scraper_service.py lines 127-152 inspects. rel is the
already-joined rel string (the code joins list-valued rel with spaces). -/
structure Elem where
  href : Option String
  ariaLabel : String
  rel : String
  text : String
  classes : List String
  disabledAttr : Bool
deriving DecidableEq, Repr

/-- Python str.lower(), character by character. -/
def strLower (s : String) : String :=
  String.mk (s.toList.map Char.toLower)

/-- The combined test string of line 140:
f-string of aria-label, rel and text, lowercased. -/
def combinedTest (e : Elem) : String :=
  strLower (e.ariaLabel ++ " " ++ e.rel ++ " " ++ e.text)

/-- Line 141: the element is a previous-page control. -/
def isPrevBtn (e : Elem) : Bool :=
  strContains (combinedTest e) "prev"

/-- Line 143: class contains disabled or inactive, or a disabled attribute. -/
def isDisabledBtn (e : Elem) : Bool :=
  (e.classes.contains "disabled" || e.classes.contains "inactive") || e.disabledAttr

/-- Line 147: href is present, truthy, not "#" and not a javascript: link. -/
def usableHref (e : Elem) : Bool :=
  match e.href with
  | none => false
  | some h => h != "" && h != "#" && !(listStartsWith h.toList "javascript:".toList)

/-- An element is selected when it passes all three filters
(lines 145 and 147: prev/disabled are skipped by continue, then the
href test selects). -/
def goodNextBtn (e : Elem) : Bool :=
  !isPrevBtn e && !isDisabledBtn e && usableHref e

/-- The nested selector loop of lines 127-151: for each selector in
priority order, scan its candidates in document order and break at the
first element passing the filters. A page is modelled as the list of
candidate element lists, one per selector of NEXT_PAGE_SELECTORS. -/
def selectNext : List (List Elem) → Option Elem
  | [] => none
  | l :: ls =>
    match l.find? goodNextBtn with
    | some e => some e
    | none => selectNext ls

/-- One step of the dedup accumulator (comparably_scraper_service.py
lines 106-113 / v18.py lines 523-529): append the parsed review to the
per-question accumulator and record its key iff the key is not already
in the category-global set. -/
def addReview (question_text : String) (p : List Review × List Key) (r : Review) :
    List Review × List Key :=
  let k := reviewKey question_text r
  if k ∈ p.2 then p else (p.1 ++ [r], p.2 ++ [k])

/-- The for-loop over one parsed segment (lines 106-113). -/
def addReviews (question_text : String) (p : List Review × List Key)
    (rs : List Review) : List Review × List Key :=
  rs.foldl (addReview question_text) p

/-- Stable insertion into a descending-by-date list. -/
def sortedInsert (r : Review) : List Review → List Review
  | [] => [r]
  | x :: xs => if r.date ≤ x.date then x :: sortedInsert r xs else r :: x :: xs

/-- Model of Python list.sort(key=lambda r: r.date, reverse=True):
sort descending by date. -/
def sortDesc : List Review → List Review
  | [] => []
  | x :: xs => sortedInsert x (sortDesc xs)

/-- Line 182: some already-accumulated review has the same text and date. -/
def hasSameTD (revs : List Review) (r : Review) : Bool :=
  revs.any (fun er => er.text == r.text && er.date == r.date)

/-- Lines 181-183: append each new review to the existing question list
unless a review with the same (text, date) pair is already present; the
membership test runs against the list as it grows. -/
def mergeReviews (old newRevs : List Review) : List Review :=
  newRevs.foldl (fun revs r => if hasSameTD revs r then revs else revs ++ [r]) old

/-- Lines 179-189: find the first collected question with the same text;
merge into it (and re-sort descending) when found, otherwise append a
fresh Question built from the category name and the accumulated list. -/
def mergeQuestion (category question_text : String) (acc : List Review) :
    List Question → List Question
  | [] => [⟨question_text, ⟨category, acc⟩⟩]
  | q :: qs =>
    if q.question_text = question_text then
      ⟨q.question_text,
       ⟨q.review_section.section_name,
        sortDesc (mergeReviews q.review_section.reviews acc)⟩⟩ :: qs
    else q :: mergeQuestion category question_text acc qs

/-- The state a category thread carries across all pages: the collected
questions and the global dedup key set (lines 38-39). -/
structure ScrapeState where
  questions : List Question
  seen : List Key
deriving DecidableEq, Repr

/-- One question block as the category loop sees it: the h2
section-subtitle text (none means the block is skipped, line 85), and
the parsed-review segments the question sub-page loop walks (the block
itself followed by each fetched sub-page), as raw review blocks. -/
structure QBlockData where
  title : Option String
  segs : List (List RevBlock)
deriving DecidableEq, Repr

/-- The dedup accumulation iterated over every parsed segment of one
question (the question block itself and each fetched sub-page), the
global key set threaded through. -/
def collectSegs (qt : String) (p : List Review × List Key)
    (segs : List (List Review)) : List Review × List Key :=
  segs.foldl (fun p seg => addReviews qt p seg) p

/-- Processing of one question block, given its parsed segments
(lines 83-189): fold the dedup accumulator over every segment with the
global key set threaded through, then (only when the accumulator is
non-empty, line 177) sort it and merge it into the collected questions. -/
def processQBlockCore (category : String) (s : ScrapeState)
    (title : Option String) (parsedSegs : List (List Review)) : ScrapeState :=
  match title with
  | none => s
  | some qt =>
    let p := collectSegs qt ([], s.seen) parsedSegs
    if p.1 = [] then { s with seen := p.2 }
    else { questions := mergeQuestion category qt (sortDesc p.1) s.questions,
           seen := p.2 }

/-- processQBlockCore applied to the parse of each raw segment. -/
def processQBlock (sf ef : Option DateTime) (category : String)
    (s : ScrapeState) (qb : QBlockData) : ScrapeState :=
  processQBlockCore category s qb.title
    (qb.segs.map (parse_reviews_from_block sf ef))

/-- The for-loop over the question blocks of one category page (line 83). -/
def processCatPage (sf ef : Option DateTime) (category : String)
    (s : ScrapeState) (qbs : List QBlockData) : ScrapeState :=
  qbs.foldl (processQBlock sf ef category) s

/-- The category-page loop of _scrape_category_deep_reviews_selenium_curl,
abstracted over the sequence of category pages actually served: the
collected questions and the dedup set persist across every page. -/
def catRun (sf ef : Option DateTime) (category : String)
    (pages : List (List QBlockData)) (s : ScrapeState) : ScrapeState :=
  pages.foldl (processCatPage sf ef category) s

/-- A page (or initial question-block segment) as the question sub-page
loop sees it: its raw review blocks, the texts of its h2.section-subtitle
elements, the number of its div.reviewsList question blocks, and its
next-page candidates per selector. -/
structure QPage where
  blocks : List RevBlock
  titles : List String
  qBlockCount : Nat
  nextLists : List (List Elem)
deriving DecidableEq, Repr

/-- MAX_REVIEW_PAGES_PER_QUESTION from src/app/core/config.py line 7. -/
def MAX_REVIEW_PAGES_PER_QUESTION : Nat := 20

/-- MAX_CATEGORY_PAGES from src/app/core/config.py line 6. -/
def MAX_CATEGORY_PAGES : Nat := 15

/-- The question sub-page loop of comparably_scraper_service.py
lines 96-175, over the finite list of pages the server would deliver
(an empty upcoming list models a fetch error, which also breaks):
parse the current segment into the dedup accumulator; stop when the
selector search finds no next link; after a fetch, stop when the fetched
page contains any h2.section-subtitle (lines 164-167); fuel is the
page budget of the while guard (MAX_REVIEW_PAGES_PER_QUESTION). -/
def qLoopApp (sf ef : Option DateTime) (qt : String) :
    Nat → QPage → List Review × List Key → List QPage → List Review × List Key
  | 0, _, p, _ => p
  | fuel + 1, seg, p, upcoming =>
    let p2 := addReviews qt p (parse_reviews_from_block sf ef seg.blocks)
    match selectNext seg.nextLists with
    | none => p2
    | some _ =>
      match upcoming with
      | [] => p2
      | nxt :: rest =>
        if nxt.titles = [] then qLoopApp sf ef qt fuel nxt p2 rest else p2

/-- The question sub-page loop of v18.py lines 515-605 (while True): the
stop checks after a fetch are, in order, zero div.cppRH review blocks
(line 585), more than one div.reviewsList question block (line 592), and
a present h2.section-subtitle whose text differs from the current
question (lines 596-600). An exhausted page list models a fetch error,
which also breaks, so with no upcoming page the current segment's
accumulation is the result whether or not a next link exists. -/
def qLoopV18 (sf ef : Option DateTime) (qt : String) :
    QPage → List Review × List Key → List QPage → List Review × List Key
  | seg, p, [] =>
    addReviews qt p (parse_reviews_from_block sf ef seg.blocks)
  | seg, p, nxt :: rest =>
    let p2 := addReviews qt p (parse_reviews_from_block sf ef seg.blocks)
    match selectNext seg.nextLists with
    | none => p2
    | some _ =>
      if nxt.blocks = [] then p2
      else if 1 < nxt.qBlockCount then p2
      else
        match nxt.titles.head? with
        | some t => if t = qt then qLoopV18 sf ef qt nxt p2 rest else p2
        | none => qLoopV18 sf ef qt nxt p2 rest

/-- A category page as the category-level navigation loop sees it:
its div.reviewsList count and whether the Selenium next-button search
succeeds on it (the search itself is the selector heuristic). -/
structure CatNavPage where
  qCount : Nat
  hasNext : Bool
deriving DecidableEq, Repr

/-- The category-page navigation skeleton of
comparably_scraper_service.py lines 59-251, returning the pages whose
question blocks get processed: the while guard caps the pages at
MAX_CATEGORY_PAGES (fuel); a page after the first with zero
div.reviewsList blocks breaks before processing (lines 79-81); a page
with no clickable next button is the last one processed (lines 235-237);
pageIdx is the running category_page_count. -/
def catLoopApp : Nat → Nat → CatNavPage → List CatNavPage → List CatNavPage
  | 0, _, _, _ => []
  | fuel + 1, pageIdx, page, rest =>
    if page.qCount = 0 && 1 < pageIdx then []
    else
      page ::
        (if page.hasNext then
          match rest with
          | [] => []
          | nx :: rs => catLoopApp fuel (pageIdx + 1) nx rs
        else [])

/-- REVIEW_CATEGORIES from src/app/core/config.py line 5. -/
def REVIEW_CATEGORIES : List String :=
  ["leadership", "compensation", "team", "environment", "outlook"]

/-- REVIEW_CATEGORIES from src/v18.py line 99 (v15.py line 63 agrees). -/
def REVIEW_CATEGORIES_V18 : List String :=
  ["leadership", "compensation", "team", "environment", "outlook", "interviews"]

/-- The submit loop of scrape_comparably_sync lines 304-313: one future
per member of REVIEW_CATEGORIES, in order; the value recorded for each
future is its category name. -/
def spawnedCategoryTasks : List String :=
  REVIEW_CATEGORIES.map (fun c => c)

/-- The per-company result merge of scrape_comparably_sync lines 315-329:
each completed category contributes its question list by
all_questions_for_company.extend, with no cross-category merging
(failed futures contribute nothing). -/
def combineCategories (results : List (List Question)) : List Question :=
  results.flatten

/-- One step of the v18 cross-category consolidation (v18.py
lines 798-812): the dict keyed by question text is modelled as a list
updated at its first (unique) matching entry; on a match the reviews are
merged with the growing (text, date) tuple set, then re-sorted; a new
text is appended at the end (dict insertion order). -/
def consolidateStep : List Question → Question → List Question
  | [], q => [q]
  | q2 :: qs, q =>
    if q2.question_text = q.question_text then
      ⟨q2.question_text,
       ⟨q2.review_section.section_name,
        sortDesc (mergeReviews q2.review_section.reviews
          q.review_section.reviews)⟩⟩ :: qs
    else q2 :: consolidateStep qs q

/-- The v18 consolidation loop over all collected questions. -/
def consolidateQuestions (qs : List Question) : List Question :=
  qs.foldl consolidateStep []

/-- Character-by-character model of Python str.title(): the first letter
of every alphabetic run is uppercased, later letters lowercased, other
characters kept. -/
def titleCaseGo : List Char → Bool → List Char
  | [], _ => []
  | c :: cs, prevAlpha =>
    (if c.isAlpha then (if prevAlpha then c.toLower else c.toUpper) else c) ::
      titleCaseGo cs c.isAlpha

/-- Python str.title(). -/
def titleCase (s : String) : String :=
  String.mk (titleCaseGo s.toList false)

/-- slug.replace(minus, space): a one-character replace is a map. -/
def dashToSpace (s : String) : String :=
  String.mk (s.toList.map (fun c => if c == '-' then ' ' else c))

/-- The fallback name company_slug.replace(minus, space).title() built at
comparably_scraper_service.py lines 294 and 336. -/
def slugFallbackName (slug : String) : String :=
  titleCase (dashToSpace slug)

/-- The company-name fixup of scrape_comparably_sync lines 334-339.
name? is company_details_overall.get, with none for an absent key. -/
def finalizeName (slug : String) (name? : Option String) : Option String :=
  let nameStr := name?.getD ""
  if nameStr = "" || strLower nameStr = strLower slug || nameStr = "unknown_company" then
    let current := name?.getD "unknown_company"
    if REVIEW_CATEGORIES.contains (strLower current) || current = "unknown_company"
    then some (slugFallbackName slug)
    else name?
  else name?

/-- The dict returned by scrape_comparably_sync lines 341-347: the
status string plus the data payload (company_info name and the reviews
list of question dumps). -/
structure ScrapeOutcome where
  status : String
  company_name : Option String
  reviews : List Question
deriving DecidableEq, Repr

/-- The success condition of the return statement at line 342: questions
were collected, or the (possibly fixed-up) company name differs from the
slug-derived fallback and from unknown_company (a missing name compares
unequal to both strings in Python, hence counts as success). -/
def successFlag (slug : String) (nameF : Option String)
    (allQs : List Question) : Bool :=
  !allQs.isEmpty ||
    (match nameF with
     | none => true
     | some n => n != slugFallbackName slug && n != "unknown_company")

/-- scrape_comparably_sync (lines 264-347) with its effects made explicit:
infoFetch is the company-info fetch (its except branch at lines 292-294
substitutes a slug-derived fallback dict), catResults are the per-category
future results in completion order (a failed future is caught at
lines 327-329 and contributes nothing). The function is total: no input
makes it propagate an error. -/
def scrape_comparably_sync (slug : String)
    (infoFetch : Except String (Option String))
    (catResults : List (Except String (List Question))) : ScrapeOutcome :=
  let name0 : Option String :=
    match infoFetch with
    | .ok n => n
    | .error _ => some (slugFallbackName slug)
  let allQs := combineCategories
    (catResults.filterMap (fun r => match r with
      | .ok qs => some qs
      | .error _ => none))
  let nameF := finalizeName slug name0
  { status := if successFlag slug nameF allQs then "success"
              else "partial_success_no_reviews",
    company_name := nameF,
    reviews := allQs }

/-- Lines 23-28 of src/app/api/scrape_endpoint.py: parse the optional
start_date_str, raising HTTP 400 on a ValueError. -/
def parseStartFilter (start_date_str : Option String) :
    Except (Nat × String) (Option DateTime) :=
  match start_date_str with
  | none => .ok none
  | some s =>
    match parseYMD s with
    | none => .error (400, "Invalid start_date_str. Use YYYY-MM-DD.")
    | some d => .ok (some d)

/-- Lines 29-33: parse the optional end_date_str, extend it to 23:59:59,
raising HTTP 400 on a ValueError. -/
def parseEndFilter (end_date_str : Option String) :
    Except (Nat × String) (Option DateTime) :=
  match end_date_str with
  | none => .ok none
  | some s =>
    match parseYMD s with
    | none => .error (400, "Invalid end_date_str. Use YYYY-MM-DD.")
    | some d => .ok (some (endOfDay d))

/-- Lines 35-39: reject start after end (both filters present), then an
empty urls list, each with HTTP 400. -/
def checkDatesAndUrls (urls : List String) (sf ef : Option DateTime) :
    Except (Nat × String) (Option DateTime × Option DateTime) :=
  match sf, ef with
  | some s, some e =>
    if e < s then
      .error (400, "start_date_str cannot be after end_date_str.")
    else if urls = [] then .error (400, "No URLs provided.")
    else .ok (sf, ef)
  | _, _ =>
    if urls = [] then .error (400, "No URLs provided.") else .ok (sf, ef)

/-- The validation prologue of scrape_companies_endpoint
(src/app/api/scrape_endpoint.py lines 18-39), run before any scraping:
the three check stages in the order the endpoint performs them. -/
def validateScrapeRequest (urls : List String)
    (start_date_str end_date_str : Option String) :
    Except (Nat × String) (Option DateTime × Option DateTime) :=
  match parseStartFilter start_date_str with
  | .error e => .error e
  | .ok sf =>
    match parseEndFilter end_date_str with
    | .error e => .error e
    | .ok ef => checkDatesAndUrls urls sf ef

/-- Modelled from the spec wording of the date filter only (for comparison
with the code): a half-open range [start_date, end_date) admits a date d
when start ≤ d and d < end, each bound applying only when supplied. -/
def specHalfOpenPass (sf ef : Option DateTime) (d : DateTime) : Bool :=
  (match sf with | none => true | some s => decide (s ≤ d)) &&
  (match ef with | none => true | some e => decide (d < e))

/-- All composite identities accumulated in a question list: for each
question, its reviews keyed with that question's text. -/
def allKeysQ : List Question → List Key
  | [] => []
  | q :: qs =>
    q.review_section.reviews.map (reviewKey q.question_text) ++ allKeysQ qs

/-- A review list sorted descending by date. -/
def SortedDesc (l : List Review) : Prop :=
  l.Pairwise (fun a b => b.date ≤ a.date)

/-- Invariant tying the accumulated questions to the dedup set: all
accumulated composite identities are pairwise distinct and recorded in
the set. -/
def StateInv (s : ScrapeState) : Prop :=
  (allKeysQ s.questions).Nodup ∧ ∀ k ∈ allKeysQ s.questions, k ∈ s.seen

/-- A review's date lies within the supplied closed date range (each
bound applying only when present). -/
def InRangeOf (sf ef : Option DateTime) (r : Review) : Prop :=
  (∀ s, sf = some s → s ≤ r.date) ∧ (∀ e, ef = some e → r.date ≤ e)

/-- Invariant of the per-question accumulator pair relative to the key
set the category had before this question block (base): accumulated keys
are pairwise distinct, recorded in the growing set, and new relative to
base; base survives in the growing set. -/
def AccInv (qt : String) (base : List Key) (p : List Review × List Key) : Prop :=
  (p.1.map (reviewKey qt)).Nodup ∧
  (∀ r ∈ p.1, reviewKey qt r ∈ p.2) ∧
  (∀ r ∈ p.1, reviewKey qt r ∉ base) ∧
  (∀ k ∈ base, k ∈ p.2)

theorem selectNext_eq_flatten_find? (lists : List (List Elem)) :
    selectNext lists = lists.flatten.find? goodNextBtn := by
  induction lists with
  | nil => rfl
  | cons l ls ih =>
    simp only [selectNext, List.flatten_cons, List.find?_append, ih]
    cases l.find? goodNextBtn <;> rfl

/-- C6 counterexample: the claim lists interviews among the fixed category
set, but the app configuration (src/app/core/config.py line 5) has only
five categories, so no scraping task is ever spawned for interviews. -/
theorem spawned_tasks_omit_interviews :
    spawnedCategoryTasks.count "interviews" = 0 ∧
    "interviews" ∉ REVIEW_CATEGORIES := by
  constructor
  · rfl
  · decide

/-- C6 amended: the fixed set the app walks is leadership, compensation,
team, environment, outlook (v18 and v15 additionally include interviews),
and scrape_comparably_sync spawns exactly one category task per member. -/
theorem category_task_spawn :
    spawnedCategoryTasks = REVIEW_CATEGORIES ∧
    REVIEW_CATEGORIES =
      ["leadership", "compensation", "team", "environment", "outlook"] ∧
    REVIEW_CATEGORIES.map (fun c => spawnedCategoryTasks.count c) =
      [1, 1, 1, 1, 1] ∧
    REVIEW_CATEGORIES_V18 = REVIEW_CATEGORIES ++ ["interviews"] := by
  refine ⟨rfl, rfl, ?_, rfl⟩
  rfl

/-- C7: the next-page search of the question sub-page loop tries the ten
configured selectors in listed priority order (its result is the first
element of the selector-ordered candidate lists passing the filters) and
any element it returns is neither a prev control nor disabled and has a
usable href. -/
theorem next_page_search_spec :
    NEXT_PAGE_SELECTORS.length = 10 ∧
    ∀ lists : List (List Elem),
      selectNext lists = lists.flatten.find? goodNextBtn ∧
      ∀ e, selectNext lists = some e →
        isPrevBtn e = false ∧ isDisabledBtn e = false ∧ usableHref e = true := by
  refine ⟨rfl, fun lists => ⟨selectNext_eq_flatten_find? lists, fun e he => ?_⟩⟩
  rw [selectNext_eq_flatten_find? lists] at he
  have hg := List.find?_some he
  simp only [goodNextBtn, Bool.and_eq_true, Bool.not_eq_true'] at hg
  exact ⟨hg.1.1, hg.1.2, hg.2⟩

/-- C7 witness: on a concrete page whose first selector yields only a
previous-page anchor and whose second yields a next anchor, the search
returns the next anchor, and the theorem yields its filter guarantees. -/
theorem next_page_search_spec_witness :
    selectNext [[⟨some "/p1", "", "prev", "Previous", [], false⟩],
                [⟨some "/p2", "", "", "Next", [], false⟩]] =
      some ⟨some "/p2", "", "", "Next", [], false⟩ ∧
    (isPrevBtn ⟨some "/p2", "", "", "Next", [], false⟩ = false ∧
     isDisabledBtn ⟨some "/p2", "", "", "Next", [], false⟩ = false ∧
     usableHref ⟨some "/p2", "", "", "Next", [], false⟩ = true) := by
  constructor
  · decide
  · exact (next_page_search_spec.2
      [[⟨some "/p1", "", "prev", "Previous", [], false⟩],
       [⟨some "/p2", "", "", "Next", [], false⟩]]).2
      ⟨some "/p2", "", "", "Next", [], false⟩ (by decide)

theorem sortedInsert_perm (r : Review) (l : List Review) :
    List.Perm (sortedInsert r l) (r :: l) := by
  induction l with
  | nil => simp [sortedInsert]
  | cons x xs ih =>
    simp only [sortedInsert]
    split
    · exact (ih.cons x).trans (List.Perm.swap r x xs)
    · exact List.Perm.refl _

theorem sortDesc_perm (l : List Review) : List.Perm (sortDesc l) l := by
  induction l with
  | nil => exact List.Perm.refl _
  | cons x xs ih => exact (sortedInsert_perm x (sortDesc xs)).trans (ih.cons x)

theorem mem_sortDesc {r : Review} {l : List Review} :
    r ∈ sortDesc l ↔ r ∈ l :=
  (sortDesc_perm l).mem_iff

theorem sortedInsert_sorted {r : Review} {l : List Review} (h : SortedDesc l) :
    SortedDesc (sortedInsert r l) := by
  induction l with
  | nil => simp [sortedInsert, SortedDesc]
  | cons x xs ih =>
    simp only [SortedDesc, List.pairwise_cons] at h
    simp only [sortedInsert]
    by_cases hc : r.date ≤ x.date
    · rw [if_pos hc]
      have hins := ih h.2
      refine List.Pairwise.cons ?_ hins
      intro y hy
      have hy2 := (sortedInsert_perm r xs).mem_iff.mp hy
      rcases List.mem_cons.mp hy2 with hy3 | hy3
      · subst hy3; exact hc
      · exact h.1 y hy3
    · rw [if_neg hc]
      refine List.Pairwise.cons ?_ (List.Pairwise.cons h.1 h.2)
      intro y hy
      rcases List.mem_cons.mp hy with hy3 | hy3
      · show y.date ≤ r.date
        rw [hy3]
        exact Nat.le_of_not_le hc
      · have h5 := h.1 y hy3
        show y.date ≤ r.date
        exact le_trans h5 (Nat.le_of_not_le hc)

theorem sortDesc_sorted (l : List Review) : SortedDesc (sortDesc l) := by
  induction l with
  | nil => simp [sortDesc, SortedDesc]
  | cons x xs ih => exact sortedInsert_sorted ih

theorem addReview_cases (qt : String) (p : List Review × List Key) (r : Review) :
    (addReview qt p r = (p.1 ++ [r], p.2 ++ [reviewKey qt r]) ∧
       reviewKey qt r ∉ p.2) ∨
    (addReview qt p r = p ∧ reviewKey qt r ∈ p.2) := by
  by_cases h : reviewKey qt r ∈ p.2
  · right; exact ⟨by simp [addReview, h], h⟩
  · left; exact ⟨by simp [addReview, h], h⟩

theorem addReviews_mem (qt : String) (rs : List Review)
    (p : List Review × List Key) {r : Review}
    (h : r ∈ (addReviews qt p rs).1) : r ∈ p.1 ∨ r ∈ rs := by
  induction rs generalizing p with
  | nil => exact Or.inl h
  | cons a as ih =>
    simp only [addReviews, List.foldl_cons] at h
    rcases ih (addReview qt p a) h with h2 | h2
    · by_cases hk : reviewKey qt a ∈ p.2
      · simp only [addReview, if_pos hk] at h2
        exact Or.inl h2
      · simp only [addReview, if_neg hk, List.mem_append,
          List.mem_singleton] at h2
        rcases h2 with h2 | h2
        · exact Or.inl h2
        · exact Or.inr (by simp [h2])
    · exact Or.inr (List.mem_cons_of_mem a h2)

theorem addReviews_seen_mono (qt : String) (rs : List Review)
    (p : List Review × List Key) {k : Key} (h : k ∈ p.2) :
    k ∈ (addReviews qt p rs).2 := by
  induction rs generalizing p with
  | nil => exact h
  | cons a as ih =>
    simp only [addReviews, List.foldl_cons]
    refine ih (addReview qt p a) ?_
    by_cases hk : reviewKey qt a ∈ p.2
    · simp only [addReview, if_pos hk]
      exact h
    · simp only [addReview, if_neg hk]
      exact List.mem_append_left _ h

theorem addReview_inv {qt : String} {base : List Key}
    {p : List Review × List Key} (hp : AccInv qt base p) (r : Review) :
    AccInv qt base (addReview qt p r) := by
  obtain ⟨h1, h2, h3, h4⟩ := hp
  rcases addReview_cases qt p r with ⟨he, hk⟩ | ⟨he, _⟩
  · rw [he]
    refine ⟨?_, ?_, ?_, ?_⟩
    · simp only [List.map_append, List.map_singleton]
      rw [List.nodup_append]
      refine ⟨h1, List.nodup_singleton _, ?_⟩
      intro k hk1 hk2
      simp only [List.mem_singleton] at hk2
      subst hk2
      rcases List.mem_map.mp hk1 with ⟨r2, hr2, hr2k⟩
      exact hk (hr2k ▸ h2 r2 hr2)
    · intro r2 hr2
      rcases List.mem_append.mp hr2 with hr2 | hr2
      · exact List.mem_append_left _ (h2 r2 hr2)
      · simp only [List.mem_singleton] at hr2
        subst hr2
        exact List.mem_append_right _ (by simp)
    · intro r2 hr2
      rcases List.mem_append.mp hr2 with hr2 | hr2
      · exact h3 r2 hr2
      · simp only [List.mem_singleton] at hr2
        subst hr2
        intro hc
        exact hk (h4 _ hc)
    · intro k hkb
      exact List.mem_append_left _ (h4 k hkb)
  · rw [he]; exact ⟨h1, h2, h3, h4⟩

theorem addReviews_inv {qt : String} {base : List Key} (rs : List Review)
    {p : List Review × List Key} (hp : AccInv qt base p) :
    AccInv qt base (addReviews qt p rs) := by
  induction rs generalizing p with
  | nil => exact hp
  | cons a as ih =>
    simp only [addReviews, List.foldl_cons]
    exact ih (addReview_inv hp a)

theorem collectSegs_inv {qt : String} {base : List Key}
    (segs : List (List Review)) {p : List Review × List Key}
    (hp : AccInv qt base p) : AccInv qt base (collectSegs qt p segs) := by
  induction segs generalizing p with
  | nil => exact hp
  | cons s ss ih =>
    simp only [collectSegs, List.foldl_cons]
    exact ih (addReviews_inv s hp)

theorem collectSegs_mem (qt : String) (segs : List (List Review))
    (p : List Review × List Key) {r : Review}
    (h : r ∈ (collectSegs qt p segs).1) :
    r ∈ p.1 ∨ ∃ seg ∈ segs, r ∈ seg := by
  induction segs generalizing p with
  | nil => exact Or.inl h
  | cons s ss ih =>
    simp only [collectSegs, List.foldl_cons] at h
    rcases ih (addReviews qt p s) h with h2 | h2
    · rcases addReviews_mem qt s p h2 with h3 | h3
      · exact Or.inl h3
      · exact Or.inr ⟨s, by simp, h3⟩
    · rcases h2 with ⟨seg, hseg, hr⟩
      exact Or.inr ⟨seg, List.mem_cons_of_mem s hseg, hr⟩

theorem collectSegs_seen_mono (qt : String) (segs : List (List Review))
    (p : List Review × List Key) {k : Key} (h : k ∈ p.2) :
    k ∈ (collectSegs qt p segs).2 := by
  induction segs generalizing p with
  | nil => exact h
  | cons s ss ih =>
    simp only [collectSegs, List.foldl_cons]
    exact ih (addReviews qt p s) (addReviews_seen_mono qt s p h)

theorem hasSameTD_iff {revs : List Review} {r : Review} :
    hasSameTD revs r = true ↔
      (r.text, r.date) ∈ revs.map (fun er => (er.text, er.date)) := by
  simp only [hasSameTD, List.any_eq_true, Bool.and_eq_true, beq_iff_eq,
    List.mem_map]
  constructor
  · rintro ⟨er, her, ht, hd⟩
    exact ⟨er, her, by rw [ht, hd]⟩
  · rintro ⟨er, her, heq⟩
    have h2 := (Prod.mk.injEq _ _ _ _).mp heq
    exact ⟨er, her, h2.1, h2.2⟩

theorem mergeReviews_nil (old : List Review) : mergeReviews old [] = old := rfl

theorem mergeReviews_cons (old : List Review) (a : Review) (as : List Review) :
    mergeReviews old (a :: as) =
      mergeReviews (if hasSameTD old a then old else old ++ [a]) as := by
  simp only [mergeReviews, List.foldl_cons]

theorem mergeReviews_mem {acc : List Review} :
    ∀ {old r}, r ∈ mergeReviews old acc →
      r ∈ old ∨
        (r ∈ acc ∧ ∀ er ∈ old, ¬(er.text = r.text ∧ er.date = r.date)) := by
  induction acc with
  | nil =>
    intro old r h
    rw [mergeReviews_nil] at h
    exact Or.inl h
  | cons a as ih =>
    intro old r h
    rw [mergeReviews_cons] at h
    by_cases hd : hasSameTD old a = true
    · rw [if_pos hd] at h
      rcases ih h with h2 | ⟨h2, h3⟩
      · exact Or.inl h2
      · exact Or.inr ⟨List.mem_cons_of_mem a h2, h3⟩
    · rw [if_neg hd] at h
      have hnew : ∀ er ∈ old, ¬(er.text = a.text ∧ er.date = a.date) := by
        intro er her hc
        exact hd (hasSameTD_iff.mpr
          (List.mem_map.mpr ⟨er, her, by rw [hc.1, hc.2]⟩))
      rcases ih h with h2 | ⟨h2, h3⟩
      · rcases List.mem_append.mp h2 with h4 | h4
        · exact Or.inl h4
        · simp only [List.mem_singleton] at h4
          subst h4
          exact Or.inr ⟨List.mem_cons_self _ _, hnew⟩
      · refine Or.inr ⟨List.mem_cons_of_mem a h2, ?_⟩
        intro er her
        exact h3 er (List.mem_append_left _ her)

theorem tdList_nodup_of_keys {qt : String} {l : List Review}
    (h : (l.map (reviewKey qt)).Nodup) :
    (l.map (fun er => (er.text, er.date))).Nodup := by
  have hmap : l.map (reviewKey qt) =
      (l.map (fun er => (er.text, er.date))).map (fun p => (qt, p)) := by
    rw [List.map_map]
    rfl
  rw [hmap] at h
  exact h.of_map _

theorem keys_nodup_of_tdList {qt : String} {l : List Review}
    (h : (l.map (fun er => (er.text, er.date))).Nodup) :
    (l.map (reviewKey qt)).Nodup := by
  have hmap : l.map (reviewKey qt) =
      (l.map (fun er => (er.text, er.date))).map (fun p => (qt, p)) := by
    rw [List.map_map]
    rfl
  rw [hmap]
  refine h.map ?_
  intro p q hpq
  exact (Prod.mk.injEq _ _ _ _).mp hpq |>.2

theorem mergeReviews_tdList_nodup {acc : List Review} :
    ∀ {old}, (old.map (fun er => (er.text, er.date))).Nodup →
      ((mergeReviews old acc).map (fun er => (er.text, er.date))).Nodup := by
  induction acc with
  | nil =>
    intro old h
    rw [mergeReviews_nil]
    exact h
  | cons a as ih =>
    intro old h
    rw [mergeReviews_cons]
    by_cases hd : hasSameTD old a = true
    · rw [if_pos hd]
      exact ih h
    · rw [if_neg hd]
      refine ih ?_
      rw [List.map_append, List.map_singleton, List.nodup_append]
      refine ⟨h, List.nodup_singleton _, ?_⟩
      intro p hp hp2
      simp only [List.mem_singleton] at hp2
      subst hp2
      exact hd (hasSameTD_iff.mpr hp)

theorem allKeysQ_cons (q : Question) (qs : List Question) :
    allKeysQ (q :: qs) =
      q.review_section.reviews.map (reviewKey q.question_text) ++ allKeysQ qs :=
  rfl

theorem mergeQuestion_mem_review (cat qt : String) (acc : List Review) :
    ∀ qs, ∀ q2 ∈ mergeQuestion cat qt acc qs,
      ∀ r ∈ q2.review_section.reviews,
        (∃ q ∈ qs, r ∈ q.review_section.reviews) ∨ r ∈ acc := by
  intro qs
  induction qs with
  | nil =>
    intro q2 hq2 r hr
    simp only [mergeQuestion, List.mem_singleton] at hq2
    subst hq2
    exact Or.inr hr
  | cons q qs ih =>
    intro q2 hq2 r hr
    simp only [mergeQuestion] at hq2
    by_cases hqt : q.question_text = qt
    · rw [if_pos hqt] at hq2
      rcases List.mem_cons.mp hq2 with h2 | h2
      · subst h2
        simp only at hr
        have hr2 := mem_sortDesc.mp hr
        rcases mergeReviews_mem hr2 with h3 | ⟨h3, _⟩
        · exact Or.inl ⟨q, List.mem_cons_self _ _, h3⟩
        · exact Or.inr h3
      · exact Or.inl ⟨q2, List.mem_cons_of_mem q h2, hr⟩
    · rw [if_neg hqt] at hq2
      rcases List.mem_cons.mp hq2 with h2 | h2
      · subst h2
        exact Or.inl ⟨q2, List.mem_cons_self _ _, hr⟩
      · rcases ih q2 h2 r hr with ⟨q3, hq3, hr3⟩ | h3
        · exact Or.inl ⟨q3, List.mem_cons_of_mem q hq3, hr3⟩
        · exact Or.inr h3

theorem mergeQuestion_keys_sub (cat qt : String) (acc : List Review) :
    ∀ qs k, k ∈ allKeysQ (mergeQuestion cat qt acc qs) →
      k ∈ allKeysQ qs ∨ k ∈ acc.map (reviewKey qt) := by
  intro qs
  induction qs with
  | nil =>
    intro k hk
    simp only [mergeQuestion, allKeysQ, List.append_nil] at hk
    exact Or.inr hk
  | cons q qs ih =>
    intro k hk
    simp only [mergeQuestion] at hk
    by_cases hqt : q.question_text = qt
    · rw [if_pos hqt] at hk
      rw [allKeysQ_cons] at hk
      rcases List.mem_append.mp hk with h2 | h2
      · simp only [List.mem_map] at h2
        rcases h2 with ⟨r, hr, hrk⟩
        have hr2 := mem_sortDesc.mp hr
        rcases mergeReviews_mem hr2 with h3 | ⟨h3, _⟩
        · left
          rw [allKeysQ_cons]
          exact List.mem_append_left _ (List.mem_map.mpr ⟨r, h3, hrk⟩)
        · right
          refine List.mem_map.mpr ⟨r, h3, ?_⟩
          rw [← hrk]
          simp only [hqt]
      · left
        rw [allKeysQ_cons]
        exact List.mem_append_right _ h2
    · rw [if_neg hqt] at hk
      rw [allKeysQ_cons] at hk
      rcases List.mem_append.mp hk with h2 | h2
      · left
        rw [allKeysQ_cons]
        exact List.mem_append_left _ h2
      · rcases ih k h2 with h3 | h3
        · left
          rw [allKeysQ_cons]
          exact List.mem_append_right _ h3
        · exact Or.inr h3

theorem mergeQuestion_keys_nodup {cat qt : String} {acc : List Review}
    {seen : List Key} :
    ∀ {qs}, (allKeysQ qs).Nodup → (∀ k ∈ allKeysQ qs, k ∈ seen) →
      (acc.map (reviewKey qt)).Nodup → (∀ r ∈ acc, reviewKey qt r ∉ seen) →
      (allKeysQ (mergeQuestion cat qt acc qs)).Nodup := by
  intro qs
  induction qs with
  | nil =>
    intro _ _ hacc _
    simpa [mergeQuestion, allKeysQ] using hacc
  | cons q qs ih =>
    intro hnd hseen hacc haccnew
    rw [allKeysQ_cons, List.nodup_append] at hnd
    obtain ⟨hnd1, hnd2, hdisj⟩ := hnd
    simp only [mergeQuestion]
    by_cases hqt : q.question_text = qt
    · rw [if_pos hqt]
      rw [allKeysQ_cons, List.nodup_append]
      refine ⟨?_, hnd2, ?_⟩
      · have hold : (q.review_section.reviews.map
            (fun er => (er.text, er.date))).Nodup :=
          tdList_nodup_of_keys hnd1
        have hm : ((mergeReviews q.review_section.reviews acc).map
            (fun er => (er.text, er.date))).Nodup :=
          mergeReviews_tdList_nodup hold
        have hperm := (sortDesc_perm
          (mergeReviews q.review_section.reviews acc)).map
          (reviewKey q.question_text)
        refine hperm.nodup_iff.mpr ?_
        rw [hqt]
        exact keys_nodup_of_tdList hm
      · intro k hk hk2
        simp only [List.mem_map] at hk
        rcases hk with ⟨r, hr, hrk⟩
        have hr2 := mem_sortDesc.mp hr
        rcases mergeReviews_mem hr2 with h3 | ⟨h3, _⟩
        · exact hdisj (List.mem_map.mpr ⟨r, h3, hrk⟩) hk2
        · have hkseen := hseen k (by
            rw [allKeysQ_cons]
            exact List.mem_append_right _ hk2)
          refine haccnew r h3 ?_
          rw [← hqt, hrk]
          exact hkseen
    · rw [if_neg hqt]
      rw [allKeysQ_cons, List.nodup_append]
      have hseen2 : ∀ k ∈ allKeysQ qs, k ∈ seen := by
        intro k hk
        refine hseen k ?_
        rw [allKeysQ_cons]
        exact List.mem_append_right _ hk
      refine ⟨hnd1, ih hnd2 hseen2 hacc haccnew, ?_⟩
      intro k hk hk2
      rcases mergeQuestion_keys_sub cat qt acc qs k hk2 with h3 | h3
      · exact hdisj hk h3
      · simp only [List.mem_map] at h3
        rcases h3 with ⟨r, hr, hrk⟩
        refine haccnew r hr ?_
        rw [hrk]
        refine hseen k ?_
        rw [allKeysQ_cons]
        exact List.mem_append_left _ hk

theorem mergeQuestion_sorted {cat qt : String} {acc : List Review}
    (hacc : SortedDesc acc) :
    ∀ {qs}, (∀ q ∈ qs, SortedDesc q.review_section.reviews) →
      ∀ q2 ∈ mergeQuestion cat qt acc qs,
        SortedDesc q2.review_section.reviews := by
  intro qs
  induction qs with
  | nil =>
    intro _ q2 hq2
    simp only [mergeQuestion, List.mem_singleton] at hq2
    subst hq2
    exact hacc
  | cons q qs ih =>
    intro hqs q2 hq2
    simp only [mergeQuestion] at hq2
    by_cases hqt : q.question_text = qt
    · rw [if_pos hqt] at hq2
      rcases List.mem_cons.mp hq2 with h2 | h2
      · subst h2
        exact sortDesc_sorted _
      · exact hqs q2 (List.mem_cons_of_mem q h2)
    · rw [if_neg hqt] at hq2
      rcases List.mem_cons.mp hq2 with h2 | h2
      · subst h2
        exact hqs q2 (List.mem_cons_self _ _)
      · exact ih (fun q3 hq3 => hqs q3 (List.mem_cons_of_mem q hq3)) q2 h2

theorem notBeforeStart_true_iff {sf : Option DateTime} {d : DateTime} :
    notBeforeStart sf d = true ↔ ∀ s, sf = some s → s ≤ d := by
  cases sf with
  | none => simp [notBeforeStart]
  | some s =>
    simp only [notBeforeStart, Bool.not_eq_true', decide_eq_false_iff_not,
      Nat.not_lt, Option.some.injEq]
    constructor
    · intro h s2 hs2
      exact hs2 ▸ h
    · intro h
      exact h s rfl

theorem notAfterEnd_true_iff {ef : Option DateTime} {d : DateTime} :
    notAfterEnd ef d = true ↔ ∀ e, ef = some e → d ≤ e := by
  cases ef with
  | none => simp [notAfterEnd]
  | some e =>
    simp only [notAfterEnd, Bool.not_eq_true', decide_eq_false_iff_not,
      Nat.not_lt, Option.some.injEq]
    constructor
    · intro h e2 he2
      exact he2 ▸ h
    · intro h
      exact h e rfl

theorem parseBlock_some_spec {sf ef : Option DateTime} {b : RevBlock}
    {r : Review} (h : parseBlock sf ef b = some r) :
    ∃ q m c d, b.quote = some q ∧ dateMetaOf b = some m ∧
      m.content = some c ∧ c ≠ "" ∧ parseYMD c = some d ∧
      r = ⟨stripNull q, d⟩ ∧
      (∀ s, sf = some s → s ≤ d) ∧ (∀ e, ef = some e → d ≤ e) := by
  cases hq : b.quote with
  | none => simp [parseBlock, hq] at h
  | some q =>
    cases hm : dateMetaOf b with
    | none => simp [parseBlock, hq, hm] at h
    | some m =>
      cases hc : m.content with
      | none => simp [parseBlock, hq, hm, hc] at h
      | some c =>
        by_cases hce : c = ""
        · simp [parseBlock, hq, hm, hc, hce] at h
        · cases hd : parseYMD c with
          | none => simp [parseBlock, hq, hm, hc, if_neg hce, hd] at h
          | some d =>
            simp only [parseBlock, hq, hm, hc, if_neg hce, hd] at h
            by_cases hf : (notBeforeStart sf d && notAfterEnd ef d) = true
            · rw [if_pos hf] at h
              rcases Bool.and_eq_true _ _ |>.mp hf with ⟨h1, h2⟩
              refine ⟨q, m, c, d, rfl, rfl, hc, hce, hd, ?_, ?_, ?_⟩
              · exact (Option.some.injEq _ _ |>.mp h).symm
              · exact notBeforeStart_true_iff.mp h1
              · exact notAfterEnd_true_iff.mp h2
            · rw [if_neg hf] at h
              exact absurd h (by simp)

theorem parse_reviews_mem {sf ef : Option DateTime} {blocks : List RevBlock}
    {r : Review} (h : r ∈ parse_reviews_from_block sf ef blocks) :
    ∃ b ∈ blocks, parseBlock sf ef b = some r := by
  rcases List.mem_filterMap.mp h with ⟨b, hb, hbr⟩
  exact ⟨b, hb, hbr⟩

theorem processQBlockCore_inv {cat : String} {s : ScrapeState}
    {title : Option String} {parsedSegs : List (List Review)}
    (h : StateInv s) : StateInv (processQBlockCore cat s title parsedSegs) := by
  obtain ⟨hnd, hseen⟩ := h
  cases title with
  | none => exact ⟨hnd, hseen⟩
  | some qt =>
    have hInit : AccInv qt s.seen ([], s.seen) := by
      refine ⟨by simp, by simp, by simp, fun k hk => hk⟩
    have hAcc := collectSegs_inv parsedSegs hInit
    obtain ⟨ha1, ha2, ha3, ha4⟩ := hAcc
    simp only [processQBlockCore]
    by_cases hp : (collectSegs qt ([], s.seen) parsedSegs).1 = []
    · rw [if_pos hp]
      exact ⟨hnd, fun k hk => ha4 k (hseen k hk)⟩
    · rw [if_neg hp]
      constructor
      · refine mergeQuestion_keys_nodup hnd hseen ?_ ?_
        · have hperm := (sortDesc_perm
            (collectSegs qt ([], s.seen) parsedSegs).1).map (reviewKey qt)
          exact hperm.nodup_iff.mpr ha1
        · intro r hr
          exact ha3 r (mem_sortDesc.mp hr)
      · intro k hk
        rcases mergeQuestion_keys_sub cat qt _ s.questions k hk with h2 | h2
        · exact ha4 k (hseen k h2)
        · rcases List.mem_map.mp h2 with ⟨r, hr, hrk⟩
          exact hrk ▸ ha2 r (mem_sortDesc.mp hr)

theorem processQBlock_inv {sf ef : Option DateTime} {cat : String}
    {s : ScrapeState} {qb : QBlockData} (h : StateInv s) :
    StateInv (processQBlock sf ef cat s qb) :=
  processQBlockCore_inv h

theorem processCatPage_inv {sf ef : Option DateTime} {cat : String}
    (qbs : List QBlockData) {s : ScrapeState} (h : StateInv s) :
    StateInv (processCatPage sf ef cat s qbs) := by
  induction qbs generalizing s with
  | nil => exact h
  | cons qb qbs ih =>
    simp only [processCatPage, List.foldl_cons]
    exact ih (processQBlock_inv h)

theorem catRun_inv {sf ef : Option DateTime} {cat : String}
    (pages : List (List QBlockData)) {s : ScrapeState} (h : StateInv s) :
    StateInv (catRun sf ef cat pages s) := by
  induction pages generalizing s with
  | nil => exact h
  | cons pg pgs ih =>
    simp only [catRun, List.foldl_cons]
    exact ih (processCatPage_inv pg h)

theorem processQBlockCore_range {sf ef : Option DateTime} {cat : String}
    {s : ScrapeState} {title : Option String} {parsedSegs : List (List Review)}
    (hsegs : ∀ seg ∈ parsedSegs, ∀ r ∈ seg, InRangeOf sf ef r)
    (h : ∀ q ∈ s.questions, ∀ r ∈ q.review_section.reviews, InRangeOf sf ef r) :
    ∀ q ∈ (processQBlockCore cat s title parsedSegs).questions,
      ∀ r ∈ q.review_section.reviews, InRangeOf sf ef r := by
  cases title with
  | none => exact h
  | some qt =>
    simp only [processQBlockCore]
    by_cases hp : (collectSegs qt ([], s.seen) parsedSegs).1 = []
    · rw [if_pos hp]
      exact h
    · rw [if_neg hp]
      intro q2 hq2 r hr
      rcases mergeQuestion_mem_review cat qt _ s.questions q2 hq2 r hr with
        ⟨q3, hq3, hr3⟩ | h3
      · exact h q3 hq3 r hr3
      · have hr4 := mem_sortDesc.mp h3
        rcases collectSegs_mem qt parsedSegs ([], s.seen) hr4 with h5 | ⟨seg, hseg, h5⟩
        · simp at h5
        · exact hsegs seg hseg r h5

theorem processQBlock_range {sf ef : Option DateTime} {cat : String}
    {s : ScrapeState} {qb : QBlockData}
    (h : ∀ q ∈ s.questions, ∀ r ∈ q.review_section.reviews, InRangeOf sf ef r) :
    ∀ q ∈ (processQBlock sf ef cat s qb).questions,
      ∀ r ∈ q.review_section.reviews, InRangeOf sf ef r := by
  refine processQBlockCore_range ?_ h
  intro seg hseg r hr
  rcases List.mem_map.mp hseg with ⟨bs, _, hbs⟩
  rcases parse_reviews_mem (hbs ▸ hr) with ⟨b, _, hb⟩
  rcases parseBlock_some_spec hb with ⟨q, m, c, d, _, _, _, _, _, hr2, hs, he⟩
  subst hr2
  exact ⟨hs, he⟩

theorem processCatPage_range {sf ef : Option DateTime} {cat : String}
    (qbs : List QBlockData) {s : ScrapeState}
    (h : ∀ q ∈ s.questions, ∀ r ∈ q.review_section.reviews, InRangeOf sf ef r) :
    ∀ q ∈ (processCatPage sf ef cat s qbs).questions,
      ∀ r ∈ q.review_section.reviews, InRangeOf sf ef r := by
  induction qbs generalizing s with
  | nil => exact h
  | cons qb qbs ih =>
    simp only [processCatPage, List.foldl_cons]
    exact ih (processQBlock_range h)

theorem catRun_range {sf ef : Option DateTime} {cat : String}
    (pages : List (List QBlockData)) {s : ScrapeState}
    (h : ∀ q ∈ s.questions, ∀ r ∈ q.review_section.reviews, InRangeOf sf ef r) :
    ∀ q ∈ (catRun sf ef cat pages s).questions,
      ∀ r ∈ q.review_section.reviews, InRangeOf sf ef r := by
  induction pages generalizing s with
  | nil => exact h
  | cons pg pgs ih =>
    simp only [catRun, List.foldl_cons]
    exact ih (processCatPage_range pg h)

theorem processQBlockCore_sorted {cat : String} {s : ScrapeState}
    {title : Option String} {parsedSegs : List (List Review)}
    (h : ∀ q ∈ s.questions, SortedDesc q.review_section.reviews) :
    ∀ q ∈ (processQBlockCore cat s title parsedSegs).questions,
      SortedDesc q.review_section.reviews := by
  cases title with
  | none => exact h
  | some qt =>
    simp only [processQBlockCore]
    by_cases hp : (collectSegs qt ([], s.seen) parsedSegs).1 = []
    · rw [if_pos hp]
      exact h
    · rw [if_neg hp]
      exact mergeQuestion_sorted (sortDesc_sorted _) h

theorem processCatPage_sorted {sf ef : Option DateTime} {cat : String}
    (qbs : List QBlockData) {s : ScrapeState}
    (h : ∀ q ∈ s.questions, SortedDesc q.review_section.reviews) :
    ∀ q ∈ (processCatPage sf ef cat s qbs).questions,
      SortedDesc q.review_section.reviews := by
  induction qbs generalizing s with
  | nil => exact h
  | cons qb qbs ih =>
    simp only [processCatPage, List.foldl_cons]
    exact ih (processQBlockCore_sorted h)

theorem catRun_sorted {sf ef : Option DateTime} {cat : String}
    (pages : List (List QBlockData)) {s : ScrapeState}
    (h : ∀ q ∈ s.questions, SortedDesc q.review_section.reviews) :
    ∀ q ∈ (catRun sf ef cat pages s).questions,
      SortedDesc q.review_section.reviews := by
  induction pages generalizing s with
  | nil => exact h
  | cons pg pgs ih =>
    simp only [catRun, List.foldl_cons]
    exact ih (processCatPage_sorted pg h)

/-- C1: within one category scrape a single global key set is threaded
across the initial page, later category pages and every question
sub-page; a parsed review is appended to the per-question accumulator
exactly when its (question text, review text, date) key is absent from
the set (in which case the key is recorded); consequently the composite
identities accumulated across all of a category's questions are pairwise
distinct for every possible input. -/
theorem global_dedup_per_category :
    (∀ (qt : String) (p : List Review × List Key) (r : Review),
        (addReview qt p r = (p.1 ++ [r], p.2 ++ [reviewKey qt r]) ∧
          reviewKey qt r ∉ p.2) ∨
        (addReview qt p r = p ∧ reviewKey qt r ∈ p.2)) ∧
    (∀ (sf ef : Option DateTime) (cat : String)
        (pages : List (List QBlockData)),
        (allKeysQ (catRun sf ef cat pages ⟨[], []⟩).questions).Nodup) := by
  refine ⟨addReview_cases, ?_⟩
  intro sf ef cat pages
  have hinit : StateInv ⟨[], []⟩ := by
    constructor
    · simp [allKeysQ]
    · intro k hk
      simp [allKeysQ] at hk
  exact (catRun_inv pages hinit).1

/-- C5: after every question-block processing step the affected question
list is re-sorted, so every question accumulator in the per-category
state stays sorted descending by review date; in particular this holds
for any full category run started from the empty state. -/
theorem question_lists_date_sorted :
    (∀ (sf ef : Option DateTime) (cat : String) (s : ScrapeState)
        (qb : QBlockData),
        (∀ q ∈ s.questions, SortedDesc q.review_section.reviews) →
        ∀ q ∈ (processQBlock sf ef cat s qb).questions,
          SortedDesc q.review_section.reviews) ∧
    (∀ (sf ef : Option DateTime) (cat : String)
        (pages : List (List QBlockData)),
        ∀ q ∈ (catRun sf ef cat pages ⟨[], []⟩).questions,
          SortedDesc q.review_section.reviews) := by
  constructor
  · intro sf ef cat s qb h
    exact processQBlockCore_sorted h
  · intro sf ef cat pages
    refine catRun_sorted pages ?_
    intro q hq
    simp at hq

/-- C5 witness: the theorem applied to the empty state and one concrete
question block with two out-of-order reviews yields sortedness of the
resulting accumulator, which the run has re-ordered to descending. -/
theorem question_lists_date_sorted_witness :
    SortedDesc (Question.mk "Q" (ReviewSection.mk "leadership"
      [⟨"r2", dateCode 2024 3 5⟩, ⟨"r1", dateCode 2024 1 2⟩])).review_section.reviews :=
  question_lists_date_sorted.1 none none "leadership" ⟨[], []⟩
    ⟨some "Q",
     [[⟨some "r1", some ⟨some ⟨some "2024-01-02"⟩, none⟩⟩,
       ⟨some "r2", some ⟨some ⟨some "2024-03-05"⟩, none⟩⟩]]⟩
    (by intro q hq; simp at hq)
    (Question.mk "Q" (ReviewSection.mk "leadership"
      [⟨"r2", dateCode 2024 3 5⟩, ⟨"r1", dateCode 2024 1 2⟩]))
    (by decide)

/-- C3 counterexample: with start 2024-01-01 and end 2024-01-02 the code
keeps a review dated exactly 2024-01-02, while the half-open reading of
the claim excludes the end date; the range the code applies is closed,
not half-open. -/
theorem date_filter_not_half_open :
    parseBlock (some (dateCode 2024 1 1)) (some (dateCode 2024 1 2))
      ⟨some "t", some ⟨some ⟨some "2024-01-02"⟩, none⟩⟩ =
      some ⟨"t", dateCode 2024 1 2⟩ ∧
    specHalfOpenPass (some (dateCode 2024 1 1)) (some (dateCode 2024 1 2))
      (dateCode 2024 1 2) = false := by
  constructor
  · decide
  · decide

/-- C3 amended: the optional date range is applied to each review's date
at parse time, before the review can reach any accumulator, and it is
closed: a parsed review is kept only when start ≤ date (when a start is
given) and date ≤ end (when an end is given); consequently every review
in every accumulator of a category run lies inside the closed range. -/
theorem date_filter_closed_interval :
    (∀ (sf ef : Option DateTime) (b : RevBlock) (r : Review),
        parseBlock sf ef b = some r → InRangeOf sf ef r) ∧
    (∀ (sf ef : Option DateTime) (cat : String)
        (pages : List (List QBlockData)),
        ∀ q ∈ (catRun sf ef cat pages ⟨[], []⟩).questions,
          ∀ r ∈ q.review_section.reviews, InRangeOf sf ef r) := by
  constructor
  · intro sf ef b r h
    rcases parseBlock_some_spec h with ⟨q, m, c, d, _, _, _, _, _, hr2, hs, he⟩
    subst hr2
    exact ⟨hs, he⟩
  · intro sf ef cat pages
    refine catRun_range pages ?_
    intro q hq
    simp at hq

/-- C3 amended witness: the theorem applied at a concrete in-range parse. -/
theorem date_filter_closed_interval_witness :
    InRangeOf (some (dateCode 2024 1 1)) (some (dateCode 2024 1 3))
      ⟨"t", dateCode 2024 1 2⟩ :=
  date_filter_closed_interval.1 (some (dateCode 2024 1 1))
    (some (dateCode 2024 1 3))
    ⟨some "t", some ⟨some ⟨some "2024-01-02"⟩, none⟩⟩
    ⟨"t", dateCode 2024 1 2⟩ (by decide)

/-- C4: a review record is produced from a review block only when both
the quote element and a date meta tag with parseable %Y-%m-%d content
are found; a block missing the quote, the date tag, its content, or a
parseable date yields none (silently dropped: parseBlock is total and
never signals an error). -/
theorem review_requires_quote_and_date :
    ∀ (sf ef : Option DateTime) (b : RevBlock),
      ((parseBlock sf ef b).isSome →
        b.quote.isSome ∧
          ∃ m c d, dateMetaOf b = some m ∧ m.content = some c ∧
            parseYMD c = some d) ∧
      (b.quote = none → parseBlock sf ef b = none) ∧
      (dateMetaOf b = none → parseBlock sf ef b = none) ∧
      (∀ m, dateMetaOf b = some m → m.content = none →
        parseBlock sf ef b = none) ∧
      (∀ m c, dateMetaOf b = some m → m.content = some c →
        parseYMD c = none → parseBlock sf ef b = none) := by
  intro sf ef b
  refine ⟨?_, ?_, ?_, ?_, ?_⟩
  · intro h
    rcases Option.isSome_iff_exists.mp h with ⟨r, hr⟩
    rcases parseBlock_some_spec hr with ⟨q, m, c, d, hq, hm, hc, _, hd, _, _, _⟩
    exact ⟨by simp [hq], m, c, d, hm, hc, hd⟩
  · intro h
    simp [parseBlock, h]
  · intro h
    cases hq : b.quote with
    | none => simp [parseBlock, hq]
    | some q => simp [parseBlock, hq, h]
  · intro m hm hc
    cases hq : b.quote with
    | none => simp [parseBlock, hq]
    | some q => simp [parseBlock, hq, hm, hc]
  · intro m c hm hc hd
    cases hq : b.quote with
    | none => simp [parseBlock, hq]
    | some q => simp [parseBlock, hq, hm, hc, hd]

/-- C4 witness: a block with both fields yields a record (and the
theorem's consequences hold there), while concrete blocks missing the
quote, the date tag, or a parseable date are dropped via the theorem. -/
theorem review_requires_quote_and_date_witness :
    (RevBlock.mk (some "g") (some ⟨some ⟨some "2024-01-02"⟩, none⟩)).quote.isSome ∧
    parseBlock none none ⟨none, some ⟨some ⟨some "2024-01-02"⟩, none⟩⟩ = none ∧
    parseBlock none none ⟨some "g", none⟩ = none ∧
    parseBlock none none ⟨some "g", some ⟨some ⟨some "not-a-date"⟩, none⟩⟩ = none :=
  ⟨((review_requires_quote_and_date none none
      (RevBlock.mk (some "g") (some ⟨some ⟨some "2024-01-02"⟩, none⟩))).1
      (by decide)).1,
   (review_requires_quote_and_date none none
      ⟨none, some ⟨some ⟨some "2024-01-02"⟩, none⟩⟩).2.1 rfl,
   (review_requires_quote_and_date none none ⟨some "g", none⟩).2.2.1 rfl,
   (review_requires_quote_and_date none none
      ⟨some "g", some ⟨some ⟨some "not-a-date"⟩, none⟩⟩).2.2.2.2
      ⟨some "not-a-date"⟩ "not-a-date" rfl rfl (by decide)⟩

/-- C2 counterexample: the app orchestrator concatenates per-category
question lists without cross-category merging, so the same question text
arriving from two categories yields two separate entries (and the second
copy's reviews are not merged into the first), contradicting the
across-categories part of the claim. -/
theorem cross_category_merge_missing :
    combineCategories
        [[⟨"Q", ⟨"leadership", [⟨"r", dateCode 2024 1 2⟩]⟩⟩],
         [⟨"Q", ⟨"compensation", [⟨"r", dateCode 2024 1 2⟩]⟩⟩]] =
      [⟨"Q", ⟨"leadership", [⟨"r", dateCode 2024 1 2⟩]⟩⟩,
       ⟨"Q", ⟨"compensation", [⟨"r", dateCode 2024 1 2⟩]⟩⟩] ∧
    ¬ ((combineCategories
        [[⟨"Q", ⟨"leadership", [⟨"r", dateCode 2024 1 2⟩]⟩⟩],
         [⟨"Q", ⟨"compensation", [⟨"r", dateCode 2024 1 2⟩]⟩⟩]]).map
          (fun q => q.question_text)).Nodup := by
  constructor
  · rfl
  · decide

/-- C2 amended: within one category scrape, a question block whose text
matches a previously seen question merges into that entry, appending a
review only when no already-accumulated review carries the same
(text, date) pair, with the merged list a re-sorted permutation; when no
entry matches, a fresh entry is appended with the new reviews. The same
merge rule is what the v18 cross-category consolidation applies, while
the app service concatenates category results unmerged. -/
theorem within_category_merge_rule :
    (∀ (cat qt : String) (acc : List Review) (qs : List Question),
        (∀ q ∈ qs, q.question_text ≠ qt) →
        mergeQuestion cat qt acc qs = qs ++ [⟨qt, ⟨cat, acc⟩⟩]) ∧
    (∀ (cat qt : String) (acc : List Review) (q : Question)
        (qs : List Question), q.question_text = qt →
        mergeQuestion cat qt acc (q :: qs) =
          ⟨q.question_text,
           ⟨q.review_section.section_name,
            sortDesc (mergeReviews q.review_section.reviews acc)⟩⟩ :: qs) ∧
    (∀ (old acc : List Review) (r : Review), r ∈ mergeReviews old acc →
        r ∈ old ∨
          (r ∈ acc ∧ ∀ er ∈ old, ¬(er.text = r.text ∧ er.date = r.date))) ∧
    (∀ (acc : List Question) (q : Question),
        (∀ q2 ∈ acc, q2.question_text ≠ q.question_text) →
        consolidateStep acc q = acc ++ [q]) ∧
    (∀ (q2 : Question) (qs : List Question) (q : Question),
        q2.question_text = q.question_text →
        consolidateStep (q2 :: qs) q =
          ⟨q2.question_text,
           ⟨q2.review_section.section_name,
            sortDesc (mergeReviews q2.review_section.reviews
              q.review_section.reviews)⟩⟩ :: qs) := by
  refine ⟨?_, ?_, ?_, ?_, ?_⟩
  · intro cat qt acc qs h
    induction qs with
    | nil => rfl
    | cons q qs ih =>
      have hne : q.question_text ≠ qt := h q (List.mem_cons_self _ _)
      simp only [mergeQuestion, if_neg hne, List.cons_append]
      rw [ih (fun q2 hq2 => h q2 (List.mem_cons_of_mem q hq2))]
  · intro cat qt acc q qs h
    simp only [mergeQuestion, if_pos h]
  · intro old acc r h
    exact mergeReviews_mem h
  · intro acc q h
    induction acc with
    | nil => rfl
    | cons q2 qs ih =>
      have hne : q2.question_text ≠ q.question_text :=
        h q2 (List.mem_cons_self _ _)
      simp only [consolidateStep, if_neg hne, List.cons_append]
      rw [ih (fun q3 hq3 => h q3 (List.mem_cons_of_mem q2 hq3))]
  · intro q2 qs q h
    simp only [consolidateStep, if_pos h]

/-- C2 amended witness: the theorem applied to concrete data: a fresh
question text is appended as a new entry, and a matching text merges
without duplicating the identical (text, date) review. -/
theorem within_category_merge_rule_witness :
    mergeQuestion "leadership" "Q" [⟨"r", dateCode 2024 1 2⟩]
        [⟨"P", ⟨"leadership", []⟩⟩] =
      [⟨"P", ⟨"leadership", []⟩⟩,
       ⟨"Q", ⟨"leadership", [⟨"r", dateCode 2024 1 2⟩]⟩⟩] ∧
    mergeQuestion "leadership" "Q" [⟨"r", dateCode 2024 1 2⟩]
        [⟨"Q", ⟨"leadership", [⟨"r", dateCode 2024 1 2⟩]⟩⟩] =
      [⟨"Q", ⟨"leadership",
        sortDesc (mergeReviews [⟨"r", dateCode 2024 1 2⟩]
          [⟨"r", dateCode 2024 1 2⟩])⟩⟩] := by
  constructor
  · exact within_category_merge_rule.1 "leadership" "Q"
      [⟨"r", dateCode 2024 1 2⟩] [⟨"P", ⟨"leadership", []⟩⟩]
      (by intro q hq; simp at hq; rw [hq]; decide)
  · exact within_category_merge_rule.2.1 "leadership" "Q"
      [⟨"r", dateCode 2024 1 2⟩]
      ⟨"Q", ⟨"leadership", [⟨"r", dateCode 2024 1 2⟩]⟩⟩ [] rfl

theorem parseStartFilter_error {ss : Option String} {e : Nat × String}
    (h : parseStartFilter ss = .error e) : e.1 = 400 := by
  cases ss with
  | none => simp [parseStartFilter] at h
  | some s =>
    cases hd : parseYMD s with
    | none =>
      simp only [parseStartFilter, hd, Except.error.injEq] at h
      rw [← h]
    | some d => simp [parseStartFilter, hd] at h

theorem parseEndFilter_error {es : Option String} {e : Nat × String}
    (h : parseEndFilter es = .error e) : e.1 = 400 := by
  cases es with
  | none => simp [parseEndFilter] at h
  | some s =>
    cases hd : parseYMD s with
    | none =>
      simp only [parseEndFilter, hd, Except.error.injEq] at h
      rw [← h]
    | some d => simp [parseEndFilter, hd] at h

theorem checkDatesAndUrls_error {urls : List String}
    {sf ef : Option DateTime} {e : Nat × String}
    (h : checkDatesAndUrls urls sf ef = .error e) : e.1 = 400 := by
  cases sf with
  | some s =>
    cases ef with
    | some en =>
      simp only [checkDatesAndUrls] at h
      by_cases hlt : en < s
      · rw [if_pos hlt] at h
        rw [← (Except.error.injEq _ _).mp h]
      · rw [if_neg hlt] at h
        by_cases hu : urls = []
        · rw [if_pos hu] at h
          rw [← (Except.error.injEq _ _).mp h]
        · rw [if_neg hu] at h
          exact absurd h (by simp)
    | none =>
      simp only [checkDatesAndUrls] at h
      by_cases hu : urls = []
      · rw [if_pos hu] at h
        rw [← (Except.error.injEq _ _).mp h]
      · rw [if_neg hu] at h
        exact absurd h (by simp)
  | none =>
    simp only [checkDatesAndUrls] at h
    by_cases hu : urls = []
    · rw [if_pos hu] at h
      rw [← (Except.error.injEq _ _).mp h]
    · rw [if_neg hu] at h
      exact absurd h (by simp)

theorem checkDatesAndUrls_empty {sf ef : Option DateTime}
    {r : Option DateTime × Option DateTime}
    (h : checkDatesAndUrls [] sf ef = .ok r) : False := by
  cases sf with
  | some s =>
    cases ef with
    | some en =>
      simp only [checkDatesAndUrls] at h
      by_cases hlt : en < s
      · rw [if_pos hlt] at h
        exact absurd h (by simp)
      · rw [if_neg hlt] at h
        simp at h
    | none => simp [checkDatesAndUrls] at h
  | none => simp [checkDatesAndUrls] at h

theorem checkDatesAndUrls_ok {urls : List String} {sf ef : Option DateTime}
    {r : Option DateTime × Option DateTime}
    (h : checkDatesAndUrls urls sf ef = .ok r) : r = (sf, ef) := by
  cases sf with
  | some s =>
    cases ef with
    | some en =>
      simp only [checkDatesAndUrls] at h
      by_cases hlt : en < s
      · rw [if_pos hlt] at h
        exact absurd h (by simp)
      · rw [if_neg hlt] at h
        by_cases hu : urls = []
        · rw [if_pos hu] at h
          exact absurd h (by simp)
        · rw [if_neg hu] at h
          exact ((Except.ok.injEq _ _).mp h).symm
    | none =>
      simp only [checkDatesAndUrls] at h
      by_cases hu : urls = []
      · rw [if_pos hu] at h
        exact absurd h (by simp)
      · rw [if_neg hu] at h
        exact ((Except.ok.injEq _ _).mp h).symm
  | none =>
    simp only [checkDatesAndUrls] at h
    by_cases hu : urls = []
    · rw [if_pos hu] at h
      exact absurd h (by simp)
    · rw [if_neg hu] at h
      exact ((Except.ok.injEq _ _).mp h).symm

/-- C9: every rejection of the /scrape validation prologue carries HTTP
status 400 and happens before any scraping: an unparseable
start_date_str or end_date_str, a start date after the (extended) end
date, and an empty urls list are each rejected; a parseable end date is
extended to 23:59:59 of its day, so a review dated on the end date
itself passes the end filter. -/
theorem endpoint_validation_spec :
    (∀ (urls : List String) (ss es : Option String) (e : Nat × String),
        validateScrapeRequest urls ss es = .error e → e.1 = 400) ∧
    (∀ (urls : List String) (s : String) (es : Option String),
        parseYMD s = none →
        validateScrapeRequest urls (some s) es =
          .error (400, "Invalid start_date_str. Use YYYY-MM-DD.")) ∧
    (∀ (urls : List String) (s : String), parseYMD s = none →
        validateScrapeRequest urls none (some s) =
          .error (400, "Invalid end_date_str. Use YYYY-MM-DD.")) ∧
    (∀ (urls : List String) (s0 s : String) (d0 : DateTime),
        parseYMD s0 = some d0 → parseYMD s = none →
        validateScrapeRequest urls (some s0) (some s) =
          .error (400, "Invalid end_date_str. Use YYYY-MM-DD.")) ∧
    (∀ (urls : List String) (s0 s1 : String) (d0 d1 : DateTime),
        parseYMD s0 = some d0 → parseYMD s1 = some d1 →
        endOfDay d1 < d0 →
        validateScrapeRequest urls (some s0) (some s1) =
          .error (400, "start_date_str cannot be after end_date_str.")) ∧
    (∀ (ss es : Option String) (r : Option DateTime × Option DateTime),
        validateScrapeRequest [] ss es ≠ .ok r) ∧
    (∀ (urls : List String) (ss : Option String) (s : String) (d : DateTime)
        (sf ef : Option DateTime), parseYMD s = some d →
        validateScrapeRequest urls ss (some s) = .ok (sf, ef) →
        ef = some (endOfDay d)) ∧
    (∀ d : DateTime, notAfterEnd (some (endOfDay d)) d = true) := by
  refine ⟨?_, ?_, ?_, ?_, ?_, ?_, ?_, ?_⟩
  · intro urls ss es e h
    cases hs : parseStartFilter ss with
    | error e2 =>
      simp only [validateScrapeRequest, hs, Except.error.injEq] at h
      exact h ▸ parseStartFilter_error hs
    | ok sf =>
      cases he : parseEndFilter es with
      | error e2 =>
        simp only [validateScrapeRequest, hs, he, Except.error.injEq] at h
        exact h ▸ parseEndFilter_error he
      | ok ef =>
        simp only [validateScrapeRequest, hs, he] at h
        exact checkDatesAndUrls_error h
  · intro urls s es h
    simp [validateScrapeRequest, parseStartFilter, h]
  · intro urls s h
    simp [validateScrapeRequest, parseStartFilter, parseEndFilter, h]
  · intro urls s0 s d0 h0 h
    simp [validateScrapeRequest, parseStartFilter, parseEndFilter, h0, h]
  · intro urls s0 s1 d0 d1 h0 h1 hlt
    simp [validateScrapeRequest, parseStartFilter, parseEndFilter, h0, h1,
      checkDatesAndUrls, if_pos hlt]
  · intro ss es r h
    cases hs : parseStartFilter ss with
    | error e2 => simp [validateScrapeRequest, hs] at h
    | ok sf =>
      cases he : parseEndFilter es with
      | error e2 => simp [validateScrapeRequest, hs, he] at h
      | ok ef =>
        simp only [validateScrapeRequest, hs, he] at h
        exact checkDatesAndUrls_empty h
  · intro urls ss s d sf ef hd h
    cases hs : parseStartFilter ss with
    | error e2 => simp [validateScrapeRequest, hs] at h
    | ok sf0 =>
      simp only [validateScrapeRequest, hs, parseEndFilter, hd] at h
      have h2 := checkDatesAndUrls_ok h
      exact (((Prod.mk.injEq _ _ _ _).mp h2.symm).2).symm
  · intro d
    simp only [notAfterEnd, endOfDay, Bool.not_eq_true',
      decide_eq_false_iff_not]
    exact Nat.not_lt.mpr (Nat.le_add_right d 86399)

/-- C9 witness: the theorem instantiated on concrete requests: a bad
start date is rejected 400; start after end is rejected 400; an empty
urls list is never accepted; a parseable end date is extended to
end of day. -/
theorem endpoint_validation_spec_witness :
    validateScrapeRequest ["u"] (some "bad") none =
      .error (400, "Invalid start_date_str. Use YYYY-MM-DD.") ∧
    validateScrapeRequest ["u"] (some "2024-01-05") (some "2024-01-02") =
      .error (400, "start_date_str cannot be after end_date_str.") ∧
    validateScrapeRequest [] none none ≠
      .ok ((none : Option DateTime), (none : Option DateTime)) ∧
    (some (endOfDay (dateCode 2024 1 2)) : Option DateTime) =
      some (endOfDay (dateCode 2024 1 2)) :=
  ⟨endpoint_validation_spec.2.1 ["u"] "bad" none (by decide),
   endpoint_validation_spec.2.2.2.2.1 ["u"] "2024-01-05" "2024-01-02"
     (dateCode 2024 1 5) (dateCode 2024 1 2) (by decide) (by decide)
     (by decide),
   endpoint_validation_spec.2.2.2.2.2.1 none none (none, none),
   endpoint_validation_spec.2.2.2.2.2.2.1 ["u"] none "2024-01-02"
     (dateCode 2024 1 2) none (some (endOfDay (dateCode 2024 1 2)))
     (by decide) (by rfl)⟩

theorem successFlag_true_iff {slug : String} {nameF : Option String}
    {allQs : List Question} :
    successFlag slug nameF allQs = true ↔
      (allQs ≠ [] ∨
       ∀ n, nameF = some n →
         n ≠ slugFallbackName slug ∧ n ≠ "unknown_company") := by
  cases nameF with
  | none =>
    refine iff_of_true ?_ ?_
    · simp [successFlag]
    · right
      intro n h
      exact Option.noConfusion h
  | some n =>
    simp only [successFlag, Bool.or_eq_true, Bool.not_eq_true',
      Bool.and_eq_true, bne_iff_ne, ne_eq, Option.some.injEq]
    constructor
    · intro h
      rcases h with h | h
      · left
        intro hc
        rw [hc] at h
        simp at h
      · right
        intro n2 hn2
        rw [← hn2]
        exact h
    · intro h
      rcases h with h | h
      · left
        rw [List.isEmpty_eq_false_iff_exists_mem]
        cases allQs with
        | nil => exact absurd rfl h
        | cons a as => exact ⟨a, by simp⟩
      · right
        exact h n rfl

theorem scrape_sync_status_eq (slug : String)
    (infoFetch : Except String (Option String))
    (catResults : List (Except String (List Question))) :
    (scrape_comparably_sync slug infoFetch catResults).status =
      if successFlag slug
          (scrape_comparably_sync slug infoFetch catResults).company_name
          (scrape_comparably_sync slug infoFetch catResults).reviews
      then "success" else "partial_success_no_reviews" := rfl

/-- C10: scrape_comparably_sync is total over its effect outcomes
(category futures and the info fetch are Except inputs whose error
branches are absorbed), its result always carries the status plus the
payload (company name and reviews), the status is one of the two
expected strings, and it is success exactly when at least one question
was collected or the resolved company name is neither the slug-derived
fallback nor unknown_company. -/
theorem scrape_sync_result :
    ∀ (slug : String) (infoFetch : Except String (Option String))
      (catResults : List (Except String (List Question))),
      ((scrape_comparably_sync slug infoFetch catResults).status = "success" ∨
       (scrape_comparably_sync slug infoFetch catResults).status =
         "partial_success_no_reviews") ∧
      ((scrape_comparably_sync slug infoFetch catResults).status = "success" ↔
        ((scrape_comparably_sync slug infoFetch catResults).reviews ≠ [] ∨
         ∀ n, (scrape_comparably_sync slug infoFetch catResults).company_name =
             some n → n ≠ slugFallbackName slug ∧ n ≠ "unknown_company")) := by
  intro slug infoFetch catResults
  have hst := scrape_sync_status_eq slug infoFetch catResults
  by_cases hF : successFlag slug
      (scrape_comparably_sync slug infoFetch catResults).company_name
      (scrape_comparably_sync slug infoFetch catResults).reviews = true
  · rw [hst, if_pos hF]
    refine ⟨Or.inl rfl, iff_of_true rfl (successFlag_true_iff.mp hF)⟩
  · rw [hst, if_neg hF]
    refine ⟨Or.inr rfl, iff_of_false (by decide) ?_⟩
    intro hR
    exact hF (successFlag_true_iff.mpr hR)

/-- C10 witness: the theorem applied to a concrete run with no category
results and a resolved non-fallback name; the status there is success. -/
theorem scrape_sync_result_witness :
    ((scrape_comparably_sync "acme-co" (.ok (some "Acme Inc")) []).status =
        "success" ∨
     (scrape_comparably_sync "acme-co" (.ok (some "Acme Inc")) []).status =
        "partial_success_no_reviews") ∧
    (scrape_comparably_sync "acme-co" (.ok (some "Acme Inc")) []).status =
      "success" :=
  ⟨(scrape_sync_result "acme-co" (.ok (some "Acme Inc")) []).1, by decide⟩

/-- C8 counterexample: in the app service question sub-page loop, a
fetched page with zero review blocks (and no question title) does not
end the loop: with a next link present the loop fetches a further page
and accumulates its review, so the run returns the review of the page
fetched after the empty one, where the claim requires termination at
the empty page with nothing further accumulated. -/
theorem qloop_continues_past_empty_page :
    (qLoopApp none none "Q" MAX_REVIEW_PAGES_PER_QUESTION
        ⟨[], [], 1, [[⟨some "/p2", "", "", "Next", [], false⟩]]⟩ ([], [])
        [⟨[], [], 0, [[⟨some "/p3", "", "", "Next", [], false⟩]]⟩,
         ⟨[⟨some "good", some ⟨some ⟨some "2024-01-02"⟩, none⟩⟩], [], 1, []⟩]).1 =
      [⟨"good", dateCode 2024 1 2⟩] ∧
    (qLoopApp none none "Q" MAX_REVIEW_PAGES_PER_QUESTION
        ⟨[], [], 1, [[⟨some "/p2", "", "", "Next", [], false⟩]]⟩ ([], [])
        [⟨[], [], 0, [[⟨some "/p3", "", "", "Next", [], false⟩]]⟩,
         ⟨[⟨some "good", some ⟨some ⟨some "2024-01-02"⟩, none⟩⟩], [], 1, []⟩]).1 ≠
      [] := by
  constructor
  · decide
  · decide

/-- C8 amended: each pagination loop ends when its next-page search finds
nothing. The v18 question sub-page loop additionally ends at a fetched
page with zero review blocks, and at a fetched page whose question title
no longer matches the current question; the app service question loop
instead ends at a fetched page containing any question title; the
category-page loop ends at a page after the first with zero question
blocks. In each ended case nothing beyond the current segment is
accumulated. -/
theorem pagination_loop_stops :
    (∀ (sf ef : Option DateTime) (qt : String) (fuel : Nat) (seg : QPage)
        (p : List Review × List Key) (upcoming : List QPage),
        selectNext seg.nextLists = none →
        qLoopApp sf ef qt (fuel + 1) seg p upcoming =
          addReviews qt p (parse_reviews_from_block sf ef seg.blocks)) ∧
    (∀ (sf ef : Option DateTime) (qt : String) (fuel : Nat) (seg : QPage)
        (p : List Review × List Key) (e : Elem) (nxt : QPage)
        (rest : List QPage),
        selectNext seg.nextLists = some e → nxt.titles ≠ [] →
        qLoopApp sf ef qt (fuel + 1) seg p (nxt :: rest) =
          addReviews qt p (parse_reviews_from_block sf ef seg.blocks)) ∧
    (∀ (sf ef : Option DateTime) (qt : String) (seg : QPage)
        (p : List Review × List Key) (upcoming : List QPage),
        selectNext seg.nextLists = none →
        qLoopV18 sf ef qt seg p upcoming =
          addReviews qt p (parse_reviews_from_block sf ef seg.blocks)) ∧
    (∀ (sf ef : Option DateTime) (qt : String) (seg : QPage)
        (p : List Review × List Key) (e : Elem) (nxt : QPage)
        (rest : List QPage),
        selectNext seg.nextLists = some e → nxt.blocks = [] →
        qLoopV18 sf ef qt seg p (nxt :: rest) =
          addReviews qt p (parse_reviews_from_block sf ef seg.blocks)) ∧
    (∀ (sf ef : Option DateTime) (qt : String) (seg : QPage)
        (p : List Review × List Key) (e : Elem) (nxt : QPage)
        (rest : List QPage) (t : String),
        selectNext seg.nextLists = some e → nxt.blocks ≠ [] →
        ¬ 1 < nxt.qBlockCount → nxt.titles.head? = some t → t ≠ qt →
        qLoopV18 sf ef qt seg p (nxt :: rest) =
          addReviews qt p (parse_reviews_from_block sf ef seg.blocks)) ∧
    (∀ (fuel pageIdx : Nat) (page : CatNavPage) (rest : List CatNavPage),
        page.hasNext = false → ¬(page.qCount = 0 ∧ 1 < pageIdx) →
        catLoopApp (fuel + 1) pageIdx page rest = [page]) ∧
    (∀ (fuel pageIdx : Nat) (page : CatNavPage) (rest : List CatNavPage),
        page.qCount = 0 → 1 < pageIdx →
        catLoopApp (fuel + 1) pageIdx page rest = []) := by
  refine ⟨?_, ?_, ?_, ?_, ?_, ?_, ?_⟩
  · intro sf ef qt fuel seg p upcoming h
    simp only [qLoopApp, h]
  · intro sf ef qt fuel seg p e nxt rest h ht
    simp only [qLoopApp, h, if_neg ht]
  · intro sf ef qt seg p upcoming h
    cases upcoming with
    | nil => simp only [qLoopV18]
    | cons nxt rest => simp only [qLoopV18, h]
  · intro sf ef qt seg p e nxt rest h hb
    simp only [qLoopV18, h, if_pos hb]
  · intro sf ef qt seg p e nxt rest t h hb hq ht hne
    simp only [qLoopV18, h, if_neg hb, if_neg hq, ht, if_neg hne]
  · intro fuel pageIdx page rest h1 h2
    have hc : (decide (page.qCount = 0) && decide (1 < pageIdx)) = false := by
      rcases Decidable.not_and_iff_or_not.mp h2 with h3 | h3
      · simp [h3]
      · simp [h3]
    simp only [catLoopApp, hc, Bool.false_eq_true, if_false, h1, if_false]
  · intro fuel pageIdx page rest h1 h2
    have hc : (decide (page.qCount = 0) && decide (1 < pageIdx)) = true := by
      simp [h1, h2]
    simp only [catLoopApp, hc, if_true]

/-- C8 amended witness: the theorem applied at concrete pages: a segment
with no next link ends the app loop with only its own parse accumulated,
and a fetched zero-block page ends the v18 loop likewise. -/
theorem pagination_loop_stops_witness :
    qLoopApp none none "Q" 20
        ⟨[⟨some "good", some ⟨some ⟨some "2024-01-02"⟩, none⟩⟩], [], 1, []⟩
        ([], []) [] =
      addReviews "Q" ([], []) (parse_reviews_from_block none none
        [⟨some "good", some ⟨some ⟨some "2024-01-02"⟩, none⟩⟩]) ∧
    qLoopV18 none none "Q"
        ⟨[], [], 1, [[⟨some "/p2", "", "", "Next", [], false⟩]]⟩ ([], [])
        [⟨[], [], 0, []⟩, ⟨[], [], 0, []⟩] =
      addReviews "Q" ([], []) (parse_reviews_from_block none none []) ∧
    catLoopApp 14 2 ⟨0, true⟩ [⟨3, false⟩] = [] :=
  ⟨pagination_loop_stops.1 none none "Q" 19
      ⟨[⟨some "good", some ⟨some ⟨some "2024-01-02"⟩, none⟩⟩], [], 1, []⟩
      ([], []) [] rfl,
   pagination_loop_stops.2.2.2.1 none none "Q"
      ⟨[], [], 1, [[⟨some "/p2", "", "", "Next", [], false⟩]]⟩ ([], [])
      ⟨some "/p2", "", "", "Next", [], false⟩ ⟨[], [], 0, []⟩
      [⟨[], [], 0, []⟩] (by decide) rfl,
   pagination_loop_stops.2.2.2.2.2.2 13 2 ⟨0, true⟩ [⟨3, false⟩] rfl
     (by decide)⟩

end Scraper
